import Mathlib

/-!
Verification of the `oubli` memory store (`src/oubli/storage.py` and
`src/oubli/mcp_server.py`) against its natural-language specification.

The storage layer keeps each record as one row of a LanceDB table; we model
the table as a `List Row` in physical (insertion) order.  `table.add` appends,
`table.delete("id = ...")` removes every row with that id, and
`table.search().limit(n).to_list()` returns the first `n` rows in physical
order.  Wall-clock readings (`datetime.utcnow().isoformat()`) are passed in as
explicit `now` arguments, and freshly minted UUIDs as explicit id arguments.

The four sequence-valued fields of a record are persisted as JSON text via
`json.dumps` / `json.loads`; the model reproduces CPython's `json` encoder
(`ensure_ascii=True`, default separators) and the part of its decoder that is
reachable from rows holding JSON-encoded lists of strings.  A decoding
failure (which raises in Python) is modelled as `none`.
-/

namespace Oubli

/-! ## Definitions: shallow embedding of the source -/

/-- Lower-case hex digit for a value `< 16`, as produced by CPython's
`json` encoder for `\uXXXX` escapes. -/
def hexDig (n : Nat) : Char :=
  if n < 10 then Char.ofNat (48 + n) else Char.ofNat (87 + n)

/-- Four lower-case hex digits of a value `< 0x10000` (big-endian). -/
def hex4 (n : Nat) : List Char :=
  [hexDig (n / 4096 % 16), hexDig (n / 256 % 16), hexDig (n / 16 % 16), hexDig (n % 16)]

/-- How `json.dumps` (with the default `ensure_ascii=True`) renders one
character inside a string literal: the two-character shorthands of
`ESCAPE_DCT`, printable ASCII verbatim, `\uXXXX` for everything else, with
surrogate pairs for astral code points. -/
def escapeChar (c : Char) : List Char :=
  if c = '\\' then ['\\', '\\']
  else if c = '"' then ['\\', '"']
  else if c = '\x08' then ['\\', 'b']
  else if c = '\x0c' then ['\\', 'f']
  else if c = '\n' then ['\\', 'n']
  else if c = '\r' then ['\\', 'r']
  else if c = '\t' then ['\\', 't']
  else if 0x20 ≤ c.toNat ∧ c.toNat ≤ 0x7e then [c]
  else if c.toNat < 0x10000 then '\\' :: 'u' :: hex4 c.toNat
  else
    ('\\' :: 'u' :: hex4 (0xd800 + (c.toNat - 0x10000) / 0x400)) ++
    ('\\' :: 'u' :: hex4 (0xdc00 + (c.toNat - 0x10000) % 0x400))

/-- Escape every character of a string body. -/
def escapeChars : List Char → List Char
  | [] => []
  | c :: t => escapeChar c ++ escapeChars t

/-- `json.dumps` of a single string: quote, escaped body, quote. -/
def encodeJsonString (s : String) : List Char :=
  '"' :: escapeChars s.data ++ ['"']

/-- The items of a dumped list after the first one: `", "` before each. -/
def encodeTail : List String → List Char
  | [] => []
  | s :: t => ',' :: ' ' :: encodeJsonString s ++ encodeTail t

/-- The comma-separated items of a dumped list. -/
def encodeItems : List String → List Char
  | [] => []
  | s :: t => encodeJsonString s ++ encodeTail t

/-- Model of `json.dumps` applied to a list of strings (default separators
give `", "` between items). -/
def jsonEncodeList (l : List String) : String :=
  ⟨'[' :: encodeItems l ++ [']']⟩

/-- Value of one hex digit, either case (as accepted by `json.loads`). -/
def hexVal (c : Char) : Option Nat :=
  if '0' ≤ c ∧ c ≤ '9' then some (c.toNat - 48)
  else if 'a' ≤ c ∧ c ≤ 'f' then some (c.toNat - 87)
  else if 'A' ≤ c ∧ c ≤ 'F' then some (c.toNat - 55)
  else none

/-- Read exactly four hex digits. -/
def parseHex4 : List Char → Option (Nat × List Char)
  | a :: b :: c :: d :: t =>
    match hexVal a, hexVal b, hexVal c, hexVal d with
    | some x, some y, some z, some w => some (x * 4096 + y * 256 + z * 16 + w, t)
    | _, _, _, _ => none
  | _ => none

/-- Decode a `\uXXXX` escape (the part after the `u`), as CPython's
`py_scanstring` does.  A high surrogate must be followed by a low surrogate
(`json.loads` would keep a lone surrogate as an unpaired code unit, which a
Lean `Char` cannot represent; such input is modelled as a failure — it never
arises from the encoder above). -/
def parseEscU (t : List Char) : Option (Char × List Char) :=
  match parseHex4 t with
  | none => none
  | some (n, t₁) =>
    if 0xd800 ≤ n ∧ n ≤ 0xdbff then
      match t₁ with
      | b :: u :: t₂ =>
        if b = '\\' ∧ u = 'u' then
          match parseHex4 t₂ with
          | none => none
          | some (n₂, t₃) =>
            if 0xdc00 ≤ n₂ ∧ n₂ ≤ 0xdfff then
              some (Char.ofNat ((n - 0xd800) * 0x400 + (n₂ - 0xdc00) + 0x10000), t₃)
            else none
        else none
      | _ => none
    else if 0xdc00 ≤ n ∧ n ≤ 0xdfff then none
    else some (Char.ofNat n, t₁)

/-- Decode the escape sequence following a backslash. -/
def parseEsc : List Char → Option (Char × List Char)
  | [] => none
  | e :: t =>
    if e = '"' then some ('"', t)
    else if e = '\\' then some ('\\', t)
    else if e = '/' then some ('/', t)
    else if e = 'b' then some ('\x08', t)
    else if e = 'f' then some ('\x0c', t)
    else if e = 'n' then some ('\n', t)
    else if e = 'r' then some ('\r', t)
    else if e = 't' then some ('\t', t)
    else if e = 'u' then parseEscU t
    else none

/-- Scan the body of a JSON string literal up to and including the closing
quote, returning the decoded characters and the rest of the input.  `fuel`
bounds the recursion; callers pass the input length, which suffices because
every step consumes at least one character.  Unescaped control characters
are rejected (`json.loads` strict mode). -/
def parseBodyF : Nat → List Char → Option (List Char × List Char)
  | 0, _ => none
  | _ + 1, [] => none
  | fuel + 1, c :: t =>
    if c = '"' then some ([], t)
    else if c = '\\' then
      match parseEsc t with
      | none => none
      | some (ch, t') =>
        match parseBodyF fuel t' with
        | none => none
        | some (cs, r) => some (ch :: cs, r)
    else if c.toNat < 0x20 then none
    else
      match parseBodyF fuel t with
      | none => none
      | some (cs, r) => some (c :: cs, r)

/-- Parse one JSON string literal (opening quote included). -/
def parseJsonString (l : List Char) : Option (String × List Char) :=
  match l with
  | '"' :: t =>
    match parseBodyF t.length t with
    | none => none
    | some (cs, r) => some (⟨cs⟩, r)
  | _ => none

/-- JSON whitespace accepted between tokens by `json.loads`. -/
def isJsonWs (c : Char) : Bool :=
  c = ' ' || c = '\t' || c = '\n' || c = '\r'

/-- Drop leading JSON whitespace. -/
def skipWs : List Char → List Char
  | [] => []
  | c :: t => if isJsonWs c then skipWs t else c :: t

/-- After a complete array item: either `]` ends the array or `,` introduces
the next string item.  `fuel` bounds the recursion; the input length
suffices since every iteration consumes at least one character. -/
def parseListRestF : Nat → List Char → Option (List String × List Char)
  | 0, _ => none
  | fuel + 1, l =>
    match skipWs l with
    | [] => none
    | c :: t =>
      if c = ']' then some ([], t)
      else if c = ',' then
        match parseJsonString (skipWs t) with
        | none => none
        | some (s, t₂) =>
          match parseListRestF fuel t₂ with
          | none => none
          | some (ss, r) => some (s :: ss, r)
      else none

/-- Model of `json.loads` restricted to arrays of strings: the only shapes
ever read back from storage rows.  Any other input is a decoding failure
(`none`), which corresponds to an exception in Python. -/
def jsonDecodeList (str : String) : Option (List String) :=
  match skipWs str.data with
  | [] => none
  | c :: t =>
    if c = '[' then
      match skipWs t with
      | [] => none
      | c' :: t' =>
        if c' = ']' then (if skipWs t' = [] then some [] else none)
        else
          match parseJsonString (c' :: t') with
          | none => none
          | some (s, t₂) =>
            match parseListRestF t₂.length t₂ with
            | none => none
            | some (ss, t₃) => if skipWs t₃ = [] then some (s :: ss) else none
    else none

/-- The `Memory` dataclass of `storage.py`, field for field.  `full_text` and
`embedding` are `Optional` in Python and modelled with `Option`; `level`,
`access_count` and `synthesis_attempts` are Python `int` (modelled `Int`),
`confidence` a Python `float`.  Timestamps are ISO-8601 strings. -/
structure Memory where
  summary : String
  level : Int
  full_text : Option String
  id : String
  topics : List String
  keywords : List String
  source : String
  parent_ids : List String
  child_ids : List String
  created_at : String
  updated_at : String
  last_accessed : String
  access_count : Int
  synthesis_attempts : Int
  confidence : Float
  embedding : Option (List Float)

/-- One row of the LanceDB `memories` table, mirroring the explicit
`pa.schema` of `_init_table`: the four sequence fields are JSON-encoded
strings, `full_text` is a plain string, and there is no embedding column. -/
structure Row where
  id : String
  summary : String
  level : Int
  full_text : String
  topics : String
  keywords : String
  source : String
  parent_ids : String
  child_ids : String
  created_at : String
  updated_at : String
  last_accessed : String
  access_count : Int
  synthesis_attempts : Int
  confidence : Float

/-- `Memory.to_dict`: JSON-encode the four list fields, normalize a missing
`full_text` to the empty string, and drop `embedding`. -/
def Memory.to_dict (m : Memory) : Row :=
  { id := m.id
    summary := m.summary
    level := m.level
    full_text := m.full_text.getD ""
    topics := jsonEncodeList m.topics
    keywords := jsonEncodeList m.keywords
    source := m.source
    parent_ids := jsonEncodeList m.parent_ids
    child_ids := jsonEncodeList m.child_ids
    created_at := m.created_at
    updated_at := m.updated_at
    last_accessed := m.last_accessed
    access_count := m.access_count
    synthesis_attempts := m.synthesis_attempts
    confidence := m.confidence }

/-- `Memory.from_dict`: parse the four JSON-encoded list fields back
(`json.loads` raises on malformed input, modelled as `none`); a row has no
embedding column, so `embedding` takes the dataclass default `None`. -/
def Memory.from_dict (r : Row) : Option Memory :=
  match jsonDecodeList r.topics, jsonDecodeList r.keywords,
      jsonDecodeList r.parent_ids, jsonDecodeList r.child_ids with
  | some ts, some ks, some ps, some cs =>
    some
      { summary := r.summary
        level := r.level
        full_text := some r.full_text
        id := r.id
        topics := ts
        keywords := ks
        source := r.source
        parent_ids := ps
        child_ids := cs
        created_at := r.created_at
        updated_at := r.updated_at
        last_accessed := r.last_accessed
        access_count := r.access_count
        synthesis_attempts := r.synthesis_attempts
        confidence := r.confidence
        embedding := none }
  | _, _, _, _ => none

/-- The LanceDB table in physical order: rows are appended by `table.add`
and removed by predicate by `table.delete`. -/
abbrev State := List Row

/-- `table.search().where(f"id = ...").limit(1).to_list()`: the first row
whose id matches. -/
def findRow (s : State) (id : String) : Option Row :=
  s.find? (fun r => r.id == id)

/-- `MemoryStore._update_access`: re-read the row, bump `access_count`,
refresh `last_accessed`, and persist via delete-then-add (which moves the
row to the end of the physical order). -/
def MemoryStore.updateAccess (s : State) (id now : String) : State :=
  match findRow s id with
  | none => s
  | some r =>
    s.filter (fun x => x.id != id) ++
      [{ r with access_count := r.access_count + 1, last_accessed := now }]

/-- `MemoryStore.get`: point lookup; on a hit it runs `_update_access` and
returns the snapshot read *before* the bump.  The outer `none` models an
exception while decoding the row (`Memory.from_dict` raising). -/
def MemoryStore.get (s : State) (id now : String) : Option (Option Memory × State) :=
  match findRow s id with
  | none => some (none, s)
  | some r =>
    match Memory.from_dict r with
    | none => none
    | some m => some (some m, MemoryStore.updateAccess s id now)

/-- `MemoryStore.get_all`: full scan bounded by `limit`, decoding every
row (an undecodable row raises, modelled as `none`). -/
def MemoryStore.get_all (s : State) (limit : Nat) : Option (List Memory) :=
  (s.take limit).mapM Memory.from_dict

/-- `MemoryStore.get_by_level`: full scan with an equality filter, bounded
by `limit`. -/
def MemoryStore.get_by_level (s : State) (level : Int) (limit : Nat) :
    Option (List Memory) :=
  ((s.filter (fun r => r.level == level)).take limit).mapM Memory.from_dict

/-- The keyword arguments accepted by `MemoryStore.update(memory_id,
**updates)`.  Every dataclass attribute of `Memory` can be supplied
(`setattr` places no restriction); `unknown_keys` stands for keyword
arguments whose name is not an attribute — `hasattr` is false for them, so
the update loop skips them. -/
structure Updates where
  summary : Option String := none
  level : Option Int := none
  full_text : Option (Option String) := none
  id : Option String := none
  topics : Option (List String) := none
  keywords : Option (List String) := none
  source : Option String := none
  parent_ids : Option (List String) := none
  child_ids : Option (List String) := none
  created_at : Option String := none
  updated_at : Option String := none
  last_accessed : Option String := none
  access_count : Option Int := none
  synthesis_attempts : Option Int := none
  confidence : Option Float := none
  embedding : Option (Option (List Float)) := none
  unknown_keys : List String := []

/-- The `for key, value in updates.items(): if hasattr(memory, key):
setattr(memory, key, value)` loop.  Each key touches a distinct attribute,
so dict iteration order is irrelevant; unknown keys fail `hasattr` and are
ignored. -/
def applyUpdates (m : Memory) (u : Updates) : Memory :=
  { summary := u.summary.getD m.summary
    level := u.level.getD m.level
    full_text := u.full_text.getD m.full_text
    id := u.id.getD m.id
    topics := u.topics.getD m.topics
    keywords := u.keywords.getD m.keywords
    source := u.source.getD m.source
    parent_ids := u.parent_ids.getD m.parent_ids
    child_ids := u.child_ids.getD m.child_ids
    created_at := u.created_at.getD m.created_at
    updated_at := u.updated_at.getD m.updated_at
    last_accessed := u.last_accessed.getD m.last_accessed
    access_count := u.access_count.getD m.access_count
    synthesis_attempts := u.synthesis_attempts.getD m.synthesis_attempts
    confidence := u.confidence.getD m.confidence
    embedding := u.embedding.getD m.embedding }

/-- True when no keyword argument names an actual `Memory` attribute. -/
def Updates.noKnown (u : Updates) : Bool :=
  u.summary.isNone && u.level.isNone && u.full_text.isNone && u.id.isNone &&
  u.topics.isNone && u.keywords.isNone && u.source.isNone &&
  u.parent_ids.isNone && u.child_ids.isNone && u.created_at.isNone &&
  u.updated_at.isNone && u.last_accessed.isNone && u.access_count.isNone &&
  u.synthesis_attempts.isNone && u.confidence.isNone && u.embedding.isNone

/-- `MemoryStore.update`: read through `self.get` (which bumps access
tracking in the table), apply the supplied fields to the snapshot, stamp
`updated_at`, then delete the old row and append the new one.  `nowAccess`
is the clock reading of the inner `get`, `now` the one used for
`updated_at`. -/
def MemoryStore.update (s : State) (id : String) (u : Updates) (nowAccess now : String) :
    Option (Bool × State) :=
  match MemoryStore.get s id nowAccess with
  | none => none
  | some (none, s₁) => some (false, s₁)
  | some (some m, s₁) =>
    let m₂ := { applyUpdates m u with updated_at := now }
    some (true, s₁.filter (fun r => r.id != id) ++ [m₂.to_dict])

/-- `MemoryStore.delete`: read through `self.get` (bumping access tracking
on a hit), then delete every row with the id. -/
def MemoryStore.delete (s : State) (id nowAccess : String) : Option (Bool × State) :=
  match MemoryStore.get s id nowAccess with
  | none => none
  | some (none, s₁) => some (false, s₁)
  | some (some _, s₁) => some (true, s₁.filter (fun r => r.id != id))

/-- `MemoryStore.delete_all`: the reported count is `len(self.get_all())`,
which is capped by `get_all`'s default `limit=1000`; if it is positive the
table is dropped and recreated empty. -/
def MemoryStore.delete_all (s : State) : Option (Nat × State) :=
  match MemoryStore.get_all s 1000 with
  | none => none
  | some all => some (all.length, if all.length > 0 then [] else s)

/-- `MemoryStore.add`: construct a `Memory` with the dataclass defaults,
a freshly minted id and current timestamps, and append its row. -/
def MemoryStore.add (s : State) (summary : String) (full_text : Option String)
    (level : Int) (topics keywords : List String) (source : String)
    (parent_ids : List String) (embedding : Option (List Float))
    (freshId now : String) : String × State :=
  let m : Memory :=
    { summary := summary
      level := level
      full_text := full_text
      id := freshId
      topics := topics
      keywords := keywords
      source := source
      parent_ids := parent_ids
      child_ids := []
      created_at := now
      updated_at := now
      last_accessed := now
      access_count := 0
      synthesis_attempts := 0
      confidence := 1.0
      embedding := embedding }
  (m.id, s ++ [m.to_dict])

/-- Python's `str.lower()`, restricted to the basic-latin range that
`Char.toLower` handles; queries and stored text are compared through this
map exactly as the source lower-cases both sides. -/
def strLower (s : String) : String :=
  ⟨s.data.map Char.toLower⟩

/-- Python's substring test `needle in hay` on the underlying character
lists: true iff `needle` occurs contiguously in `hay` (the empty needle is
contained in everything). -/
def listContainsSub (needle : List Char) : List Char → Bool
  | [] => needle.isEmpty
  | c :: t => needle.isPrefixOf (c :: t) || listContainsSub needle t

/-- `query_lower in text.lower()` as used throughout `search`. -/
def pyIn (qLower : String) (text : String) : Bool :=
  listContainsSub qLower.data (strLower text).data

/-- The score accumulation loop of `MemoryStore.search` for one record:
`+2` on a summary hit, `+1` on a non-empty `full_text` hit, `+1` per
matching keyword, `+1` per matching topic.  `qLower` is the already
lower-cased query. -/
def scoreMem (qLower : String) (m : Memory) : Nat :=
  let s₁ := if pyIn qLower m.summary then 2 else 0
  let s₂ :=
    if (match m.full_text with
        | some ft => ft ≠ "" && pyIn qLower ft
        | none => false) then s₁ + 1 else s₁
  let s₃ := m.keywords.foldl (fun sc kw => if pyIn qLower kw then sc + 1 else sc) s₂
  m.topics.foldl (fun sc tp => if pyIn qLower tp then sc + 1 else sc) s₃

/-- The `matches` list built by the scan loop: `(score, memory)` pairs in
scan order, keeping only positive scores. -/
def buildMatches (qLower : String) : List Memory → List (Nat × Memory)
  | [] => []
  | m :: rest =>
    if scoreMem qLower m > 0 then (scoreMem qLower m, m) :: buildMatches qLower rest
    else buildMatches qLower rest

/-- Stable insertion into a list sorted by score descending: the new pair
goes before the first element whose score is `≤` its own, hence after all
strictly greater scores and before earlier-inserted equal scores. -/
def insertDesc (p : Nat × Memory) : List (Nat × Memory) → List (Nat × Memory)
  | [] => [p]
  | q :: t => if q.1 ≤ p.1 then p :: q :: t else q :: insertDesc p t

/-- Model of Python's stable `matches.sort(key=lambda x: x[0],
reverse=True)`: a stable sort by score descending (insertion sort is one;
stability plus sortedness determines the output uniquely). -/
def pySortDesc (ps : List (Nat × Memory)) : List (Nat × Memory) :=
  ps.foldr insertDesc []

/-- `MemoryStore.search`: scan (capped at 1000 rows by `get_all`'s
argument), score, keep positive scores, stable-sort descending, return the
first `limit` memories. -/
def MemoryStore.search (s : State) (query : String) (limit : Nat) :
    Option (List Memory) :=
  match MemoryStore.get_all s 1000 with
  | none => none
  | some all =>
    some (((pySortDesc (buildMatches (strLower query) all)).take limit).map Prod.snd)

/-- `d[k] = d.get(k, 0) + 1` on a Python dict modelled as an association
list in insertion order. -/
def dictIncr {κ : Type} [BEq κ] : List (κ × Nat) → κ → List (κ × Nat)
  | [], k => [(k, 1)]
  | (k', v) :: t, k => if k' == k then (k', v + 1) :: t else (k', v) :: dictIncr t k

/-- `d.get(k, 0)` on the association-list dict. -/
def dictGet {κ : Type} [BEq κ] (d : List (κ × Nat)) (k : κ) : Nat :=
  match d.find? (fun p => p.1 == k) with
  | some p => p.2
  | none => 0

/-- The `MemoryStats` dataclass: dicts are modelled as insertion-ordered
association lists. -/
structure MemoryStats where
  total : Nat
  by_level : List (Int × Nat)
  by_topic : List (String × Nat)
  by_source : List (String × Nat)

/-- One iteration of the `get_stats` loop: count the record's level, each
of its topic instances, and its source. -/
def statsStep (acc : List (Int × Nat) × List (String × Nat) × List (String × Nat))
    (m : Memory) : List (Int × Nat) × List (String × Nat) × List (String × Nat) :=
  (dictIncr acc.1 m.level,
   m.topics.foldl dictIncr acc.2.1,
   dictIncr acc.2.2 m.source)

/-- The single accumulation loop of `get_stats` over the scanned records. -/
def statsFold (ms : List Memory) :
    List (Int × Nat) × List (String × Nat) × List (String × Nat) :=
  ms.foldl statsStep ([], [], [])

/-- `MemoryStore.get_stats`: full scan via `get_all()` (default
`limit=1000`), then per-level, per-topic and per-source counts. -/
def MemoryStore.get_stats (s : State) : Option MemoryStats :=
  match MemoryStore.get_all s 1000 with
  | none => none
  | some all =>
    some
      { total := all.length
        by_level := (statsFold all).1
        by_topic := (statsFold all).2.1
        by_source := (statsFold all).2.2 }

/-- One entry of the `memories` argument of `memory_import`: a dict whose
keys `summary`, `full_text`, `topics`, `keywords` may each be absent. -/
structure ImportEntry where
  summary : Option String := none
  full_text : Option String := none
  topics : Option (List String) := none
  keywords : Option (List String) := none

/-- The import loop: `if not summary: continue` skips entries whose
summary is missing *or empty* (Python falsiness); the rest are added at
level 0 with the batch `source` and fresh ids drawn from `freshIds`
(`k` counts the ids already minted). -/
def importLoop (source now : String) (freshIds : Nat → String) :
    List ImportEntry → State → Nat → List String × State
  | [], s, _ => ([], s)
  | e :: rest, s, k =>
    match e.summary with
    | none => importLoop source now freshIds rest s k
    | some sm =>
      if sm = "" then importLoop source now freshIds rest s k
      else
        let r := MemoryStore.add s sm (some (e.full_text.getD "")) 0
          (e.topics.getD []) (e.keywords.getD []) source [] none (freshIds k) now
        let rec' := importLoop source now freshIds rest r.2 (k + 1)
        (r.1 :: rec'.1, rec'.2)

/-- The result dict of `memory_import`. -/
structure ImportResult where
  count : Nat
  ids : List String

/-- `memory_import`: add every entry with a non-empty summary, report how
many were imported and their ids. -/
def memory_import (s : State) (entries : List ImportEntry) (source : String)
    (freshIds : Nat → String) (now : String) : ImportResult × State :=
  let r := importLoop source now freshIds entries s 0
  ({ count := r.1.length, ids := r.1 }, r.2)

def specScore (query : String) (m : Memory) : Nat :=
  (if pyIn (strLower query) m.summary then 2 else 0) +
  (if (m.full_text.getD "") ≠ "" && pyIn (strLower query) (m.full_text.getD "") then 1 else 0) +
  m.keywords.countP (fun kw => pyIn (strLower query) kw) +
  m.topics.countP (fun tp => pyIn (strLower query) tp)

def searchSpec (s : State) (query : String) (limit : Nat) : Option (List Memory) :=
  match MemoryStore.get_all s 1000 with
  | none => none
  | some scanned =>
    some (((pySortDesc ((scanned.map (fun m => (specScore query m, m))).filter
      (fun p => p.1 != 0))).take limit).map Prod.snd)

/-- Sum of the values of an association-list dict. -/
def sumValues {κ : Type} (d : List (κ × Nat)) : Nat :=
  (d.map Prod.snd).sum

/-- A well-formed stored row (empty list fields, access count 5). -/
def sampleRow : Row :=
  { id := "a", summary := "s", level := 0, full_text := "", topics := "[]",
    keywords := "[]", source := "conversation", parent_ids := "[]",
    child_ids := "[]", created_at := "t0", updated_at := "t0",
    last_accessed := "t0", access_count := 5, synthesis_attempts := 0,
    confidence := 1.0 }

/-- The decoded form of `sampleRow`. -/
def sampleMemory : Memory :=
  { summary := "s", level := 0, full_text := some "", id := "a", topics := [],
    keywords := [], source := "conversation", parent_ids := [], child_ids := [],
    created_at := "t0", updated_at := "t0", last_accessed := "t0",
    access_count := 5, synthesis_attempts := 0, confidence := 1.0,
    embedding := none }

/-- The record of the specification's search scenario: summary "met Alice
at the park", keyword "Alice", otherwise the defaults `add` would give. -/
def aliceMemory : Memory :=
  { summary := "met Alice at the park", level := 0, full_text := none,
    id := "id-alice", topics := [], keywords := ["Alice"],
    source := "conversation", parent_ids := [], child_ids := [],
    created_at := "t", updated_at := "t", last_accessed := "t",
    access_count := 0, synthesis_attempts := 0, confidence := 1.0,
    embedding := none }

/-- A store of 1001 distinct well-formed rows (ids "0" … "1000"). -/
def bigState : State :=
  (List.range 1001).map (fun i => { sampleRow with id := toString i })

/-! ## Theorems -/

theorem charOfNat_toNat (c : Char) : Char.ofNat c.toNat = c := by
  have hv : c.toNat.isValidChar := c.valid
  apply Char.eq_of_val_eq
  simp only [Char.ofNat, hv, dif_pos, Char.ofNatAux]
  apply UInt32.eq_of_toBitVec_eq
  apply BitVec.eq_of_toNat_eq
  simp [Char.toNat, UInt32.toNat]

theorem hexVal_hexDig : ∀ d : Nat, d < 16 → hexVal (hexDig d) = some d := by decide

theorem parseHex4_hex4 (n : Nat) (h : n < 65536) (t : List Char) :
    parseHex4 (hex4 n ++ t) = some (n, t) := by
  have h3 := hexVal_hexDig (n / 4096 % 16) (Nat.mod_lt _ (by omega))
  have h2 := hexVal_hexDig (n / 256 % 16) (Nat.mod_lt _ (by omega))
  have h1 := hexVal_hexDig (n / 16 % 16) (Nat.mod_lt _ (by omega))
  have h0 := hexVal_hexDig (n % 16) (Nat.mod_lt _ (by omega))
  simp only [hex4, List.cons_append, List.nil_append, parseHex4, h3, h2, h1, h0]
  congr 2
  omega

theorem parseEscU_of_no_surrogate {t t₁ : List Char} {n : Nat}
    (h : parseHex4 t = some (n, t₁)) (hs : n < 0xd800 ∨ 0xdfff < n) :
    parseEscU t = some (Char.ofNat n, t₁) := by
  simp only [parseEscU, h]
  rw [if_neg (by omega), if_neg (by omega)]

theorem parseEscU_of_surrogates {t t₂ t₃ : List Char} {n n₂ : Nat}
    (h : parseHex4 t = some (n, '\\' :: 'u' :: t₂))
    (hn : 0xd800 ≤ n ∧ n ≤ 0xdbff)
    (h₂ : parseHex4 t₂ = some (n₂, t₃))
    (hn₂ : 0xdc00 ≤ n₂ ∧ n₂ ≤ 0xdfff) :
    parseEscU t = some (Char.ofNat ((n - 0xd800) * 0x400 + (n₂ - 0xdc00) + 0x10000), t₃) := by
  simp only [parseEscU, h, h₂]
  rw [if_pos hn]
  simp only [if_pos hn₂]
  simp

theorem parseEscU_bmp (n : Nat) (r : List Char) (hlt : n < 65536)
    (hs : n < 0xd800 ∨ 0xdfff < n) :
    parseEscU (hex4 n ++ r) = some (Char.ofNat n, r) :=
  parseEscU_of_no_surrogate (parseHex4_hex4 n hlt r) hs

theorem parseEscU_astral (n : Nat) (r : List Char) (h1 : 0x10000 ≤ n) (h2 : n < 0x110000) :
    parseEscU (hex4 (0xd800 + (n - 0x10000) / 0x400) ++
      ('\\' :: 'u' :: (hex4 (0xdc00 + (n - 0x10000) % 0x400) ++ r))) =
      some (Char.ofNat n, r) := by
  have hhi : 0xd800 + (n - 0x10000) / 0x400 < 65536 := by omega
  have hlo : 0xdc00 + (n - 0x10000) % 0x400 < 65536 := by omega
  have hkey := parseEscU_of_surrogates
    (t := hex4 (0xd800 + (n - 0x10000) / 0x400) ++
      ('\\' :: 'u' :: (hex4 (0xdc00 + (n - 0x10000) % 0x400) ++ r)))
    (parseHex4_hex4 _ hhi _) (by constructor <;> omega)
    (parseHex4_hex4 _ hlo _) (by constructor <;> omega)
  rw [hkey]
  have harith : (0xd800 + (n - 0x10000) / 0x400 - 0xd800) * 0x400 +
      (0xdc00 + (n - 0x10000) % 0x400 - 0xdc00) + 0x10000 = n := by omega
  rw [harith]

/-- Every character's escape either is the character itself (printable,
non-special) or starts with a backslash whose continuation `parseEsc`
decodes back to the character. -/
theorem escape_step (c : Char) :
    (escapeChar c = [c] ∧ c ≠ '"' ∧ c ≠ '\\' ∧ ¬ c.toNat < 0x20) ∨
    (∃ tl, escapeChar c = '\\' :: tl ∧ ∀ r, parseEsc (tl ++ r) = some (c, r)) := by
  have hval : c.toNat < 0xd800 ∨ (0xdfff < c.toNat ∧ c.toNat < 0x110000) := c.valid
  by_cases h1 : c = '\\'
  · exact Or.inr ⟨['\\'], by simp [escapeChar, h1], fun r => by subst h1; rfl⟩
  by_cases h2 : c = '"'
  · exact Or.inr ⟨['"'], by simp [escapeChar, h1, h2], fun r => by subst h2; rfl⟩
  by_cases h3 : c = '\x08'
  · exact Or.inr ⟨['b'], by simp [escapeChar, h1, h2, h3], fun r => by subst h3; rfl⟩
  by_cases h4 : c = '\x0c'
  · exact Or.inr ⟨['f'], by simp [escapeChar, h1, h2, h3, h4], fun r => by subst h4; rfl⟩
  by_cases h5 : c = '\n'
  · exact Or.inr ⟨['n'], by simp [escapeChar, h1, h2, h3, h4, h5], fun r => by subst h5; rfl⟩
  by_cases h6 : c = '\r'
  · exact Or.inr ⟨['r'], by simp [escapeChar, h1, h2, h3, h4, h5, h6], fun r => by subst h6; rfl⟩
  by_cases h7 : c = '\t'
  · exact Or.inr ⟨['t'], by simp [escapeChar, h1, h2, h3, h4, h5, h6, h7],
      fun r => by subst h7; rfl⟩
  by_cases h8 : 0x20 ≤ c.toNat ∧ c.toNat ≤ 0x7e
  · refine Or.inl ⟨by simp [escapeChar, h1, h2, h3, h4, h5, h6, h7, h8], h2, h1, by omega⟩
  by_cases h9 : c.toNat < 0x10000
  · refine Or.inr ⟨'u' :: hex4 c.toNat,
      by simp [escapeChar, h1, h2, h3, h4, h5, h6, h7, h8, h9], fun r => ?_⟩
    have hstep : parseEsc (('u' :: hex4 c.toNat) ++ r) = parseEscU (hex4 c.toNat ++ r) := rfl
    rw [hstep, parseEscU_bmp c.toNat r h9 (by omega), charOfNat_toNat]
  · refine Or.inr ⟨'u' :: (hex4 (0xd800 + (c.toNat - 0x10000) / 0x400) ++
      ('\\' :: 'u' :: hex4 (0xdc00 + (c.toNat - 0x10000) % 0x400))),
      by simp [escapeChar, h1, h2, h3, h4, h5, h6, h7, h8, h9], fun r => ?_⟩
    have hstep : parseEsc (('u' :: (hex4 (0xd800 + (c.toNat - 0x10000) / 0x400) ++
        ('\\' :: 'u' :: hex4 (0xdc00 + (c.toNat - 0x10000) % 0x400)))) ++ r) =
        parseEscU (hex4 (0xd800 + (c.toNat - 0x10000) / 0x400) ++
        ('\\' :: 'u' :: (hex4 (0xdc00 + (c.toNat - 0x10000) % 0x400) ++ r))) := by
      simp [parseEsc]
    rw [hstep, parseEscU_astral c.toNat r (by omega) (by omega), charOfNat_toNat]

theorem parseBodyF_quote (fuel : Nat) (t : List Char) :
    parseBodyF (fuel + 1) ('"' :: t) = some ([], t) := rfl

theorem parseBodyF_esc {t t' r : List Char} {ch : Char} {cs : List Char} (fuel : Nat)
    (h : parseEsc t = some (ch, t')) (hrec : parseBodyF fuel t' = some (cs, r)) :
    parseBodyF (fuel + 1) ('\\' :: t) = some (ch :: cs, r) := by
  simp only [parseBodyF, h, hrec]
  rfl

theorem parseBodyF_plain {c : Char} {t r : List Char} {cs : List Char} (fuel : Nat)
    (h1 : ¬ c = '"') (h2 : ¬ c = '\\') (h3 : ¬ c.toNat < 0x20)
    (hrec : parseBodyF fuel t = some (cs, r)) :
    parseBodyF (fuel + 1) (c :: t) = some (c :: cs, r) := by
  simp only [parseBodyF, if_neg h1, if_neg h2, if_neg h3, hrec]

/-- Scanning the escaped body of a string recovers exactly the original
characters and stops right after the closing quote. -/
theorem parseBodyF_escapeChars (s : List Char) (t : List Char) :
    ∀ fuel, (escapeChars s).length + 1 ≤ fuel →
    parseBodyF fuel (escapeChars s ++ '"' :: t) = some (s, t) := by
  induction s with
  | nil =>
    intro fuel hf
    obtain ⟨f, rfl⟩ : ∃ f, fuel = f + 1 := ⟨fuel - 1, by omega⟩
    simpa [escapeChars] using parseBodyF_quote f t
  | cons c cs ih =>
    intro fuel hf
    have hsplit : escapeChars (c :: cs) = escapeChar c ++ escapeChars cs := rfl
    rcases escape_step c with ⟨hc, hq, hb, hctl⟩ | ⟨tl, htl, hp⟩
    · have hlen : (escapeChars (c :: cs)).length = 1 + (escapeChars cs).length := by
        rw [hsplit, hc]; simp; omega
      obtain ⟨f, rfl⟩ : ∃ f, fuel = f + 1 := ⟨fuel - 1, by omega⟩
      rw [hsplit, hc]
      have : ([c] ++ escapeChars cs) ++ '"' :: t = c :: (escapeChars cs ++ '"' :: t) := by simp
      rw [this]
      exact parseBodyF_plain f hq hb hctl (ih f (by omega))
    · have hlen : (escapeChars (c :: cs)).length = tl.length + 1 + (escapeChars cs).length := by
        rw [hsplit, htl]; simp; omega
      obtain ⟨f, rfl⟩ : ∃ f, fuel = f + 1 := ⟨fuel - 1, by omega⟩
      rw [hsplit, htl]
      have : (('\\' :: tl) ++ escapeChars cs) ++ '"' :: t =
          '\\' :: (tl ++ (escapeChars cs ++ '"' :: t)) := by simp
      rw [this]
      exact parseBodyF_esc f (hp (escapeChars cs ++ '"' :: t)) (ih f (by omega))

/-- Parsing an encoded string recovers it and leaves the rest untouched. -/
theorem parseJsonString_encode (s : String) (t : List Char) :
    parseJsonString (encodeJsonString s ++ t) = some (s, t) := by
  have hshape : encodeJsonString s ++ t = '"' :: (escapeChars s.data ++ '"' :: t) := by
    simp [encodeJsonString]
  rw [hshape]
  have hlen : (escapeChars s.data).length + 1 ≤ (escapeChars s.data ++ '"' :: t).length := by
    simp
  simp only [parseJsonString, parseBodyF_escapeChars s.data t _ hlen]

theorem skipWs_cons (c : Char) (t : List Char) (h : isJsonWs c = false) :
    skipWs (c :: t) = c :: t := by
  simp [skipWs, h]

theorem skipWs_space (t : List Char) : skipWs (' ' :: t) = skipWs t := by
  simp [skipWs, isJsonWs]

theorem parseListRestF_close {l t : List Char} (fuel : Nat) (h : skipWs l = ']' :: t) :
    parseListRestF (fuel + 1) l = some ([], t) := by
  simp [parseListRestF, h]

theorem parseListRestF_comma {l t t₂ r : List Char} {s : String} {ss : List String} (fuel : Nat)
    (h : skipWs l = ',' :: t) (hs : parseJsonString (skipWs t) = some (s, t₂))
    (hrec : parseListRestF fuel t₂ = some (ss, r)) :
    parseListRestF (fuel + 1) l = some (s :: ss, r) := by
  simp [parseListRestF, h, hs, hrec]

/-- `encodeTail`-shaped input parses back to the encoded items, consuming the
closing bracket. -/
theorem parseListRestF_encodeTail (ss : List String) (t : List Char) :
    ∀ fuel, (encodeTail ss).length + 1 ≤ fuel →
    parseListRestF fuel (encodeTail ss ++ ']' :: t) = some (ss, t) := by
  induction ss with
  | nil =>
    intro fuel hf
    obtain ⟨f, rfl⟩ : ∃ f, fuel = f + 1 := ⟨fuel - 1, by omega⟩
    refine parseListRestF_close f ?_
    rw [show encodeTail [] ++ ']' :: t = ']' :: t by simp [encodeTail]]
    exact skipWs_cons ']' t (by decide)
  | cons s ss ih =>
    intro fuel hf
    have hshape : encodeTail (s :: ss) ++ ']' :: t =
        ',' :: ' ' :: (encodeJsonString s ++ (encodeTail ss ++ ']' :: t)) := by
      simp [encodeTail]
    obtain ⟨f, rfl⟩ : ∃ f, fuel = f + 1 := ⟨fuel - 1, by omega⟩
    rw [hshape]
    have hs : parseJsonString
        (skipWs (' ' :: (encodeJsonString s ++ (encodeTail ss ++ ']' :: t)))) =
        some (s, encodeTail ss ++ ']' :: t) := by
      rw [skipWs_space]
      have hq : skipWs (encodeJsonString s ++ (encodeTail ss ++ ']' :: t)) =
          encodeJsonString s ++ (encodeTail ss ++ ']' :: t) := by
        rw [show encodeJsonString s ++ (encodeTail ss ++ ']' :: t) =
          '"' :: (escapeChars s.data ++ ['"'] ++ (encodeTail ss ++ ']' :: t)) by
            simp [encodeJsonString]]
        exact skipWs_cons '"' _ (by decide)
      rw [hq]
      exact parseJsonString_encode s (encodeTail ss ++ ']' :: t)
    have hlen : (encodeTail (s :: ss)).length =
        2 + (encodeJsonString s).length + (encodeTail ss).length := by
      simp [encodeTail]; omega
    have hrec : parseListRestF f (encodeTail ss ++ ']' :: t) = some (ss, t) :=
      ih f (by omega)
    exact parseListRestF_comma f (skipWs_cons ',' _ (by decide)) hs hrec

theorem jsonDecodeList_of_parse {str : String} {t t₁ t₂ : List Char} {s : String}
    {ss : List String}
    (h : skipWs str.data = '[' :: t)
    (h2 : skipWs t = '"' :: t₁)
    (h3 : parseJsonString ('"' :: t₁) = some (s, t₂))
    (h4 : parseListRestF t₂.length t₂ = some (ss, []))
    : jsonDecodeList str = some (s :: ss) := by
  simp [jsonDecodeList, h, h2, h3, h4, skipWs]

/-- Round trip: decoding the canonical encoding of any list of strings gives
back exactly that list. -/
theorem jsonDecode_encode (l : List String) : jsonDecodeList (jsonEncodeList l) = some l := by
  cases l with
  | nil => rfl
  | cons s ss =>
    have h1 : skipWs (jsonEncodeList (s :: ss)).data =
        '[' :: (encodeJsonString s ++ (encodeTail ss ++ [']'])) := by
      rw [show (jsonEncodeList (s :: ss)).data =
        '[' :: (encodeJsonString s ++ (encodeTail ss ++ [']'])) by
          simp [jsonEncodeList, encodeItems]]
      exact skipWs_cons '[' _ (by decide)
    have h2 : skipWs (encodeJsonString s ++ (encodeTail ss ++ [']'])) =
        '"' :: (escapeChars s.data ++ '"' :: (encodeTail ss ++ [']'])) := by
      rw [show encodeJsonString s ++ (encodeTail ss ++ [']']) =
        '"' :: (escapeChars s.data ++ '"' :: (encodeTail ss ++ [']'])) by
          simp [encodeJsonString]]
      exact skipWs_cons '"' _ (by decide)
    have h3 : parseJsonString ('"' :: (escapeChars s.data ++ '"' :: (encodeTail ss ++ [']']))) =
        some (s, encodeTail ss ++ [']']) := by
      have hx := parseJsonString_encode s (encodeTail ss ++ [']'])
      rw [show encodeJsonString s ++ (encodeTail ss ++ [']']) =
        '"' :: (escapeChars s.data ++ '"' :: (encodeTail ss ++ [']'])) by
          simp [encodeJsonString]] at hx
      exact hx
    have h4 : parseListRestF (encodeTail ss ++ [']']).length (encodeTail ss ++ [']']) =
        some (ss, []) := by
      have hfuel : (encodeTail ss).length + 1 ≤ (encodeTail ss ++ [']']).length := by simp
      exact parseListRestF_encodeTail ss [] _ hfuel
    exact jsonDecodeList_of_parse h1 h2 h3 h4

/-- Serialization round trip (claim C4 groundwork): a missing `full_text`
comes back as the empty string, `embedding` is not persisted, everything
else — including the order of the four list fields — survives exactly. -/
theorem from_dict_to_dict (m : Memory) :
    Memory.from_dict (Memory.to_dict m) =
      some { m with full_text := some (m.full_text.getD ""), embedding := none } := by
  simp [Memory.from_dict, Memory.to_dict, jsonDecode_encode]

theorem foldl_count_if {α : Type} (p : α → Bool) :
    ∀ (l : List α) (n : Nat),
    l.foldl (fun sc x => if p x then sc + 1 else sc) n = n + l.countP p := by
  intro l
  induction l with
  | nil => intro n; simp
  | cons x t ih =>
    intro n
    by_cases h : p x <;> simp [h, ih, List.countP_cons] <;> omega

/-- The accumulated score of the source loop equals the sum stated by the
specification. -/
theorem scoreMem_eq_specScore (q : String) (m : Memory) :
    scoreMem (strLower q) m = specScore q m := by
  unfold scoreMem specScore
  rw [foldl_count_if, foldl_count_if]
  have hft : (match m.full_text with
      | some ft => ft ≠ "" && pyIn (strLower q) ft
      | none => false) =
      ((m.full_text.getD "") ≠ "" && pyIn (strLower q) (m.full_text.getD "")) := by
    cases m.full_text <;> simp
  rw [hft]
  have h2 : (if ((m.full_text.getD "") ≠ "" && pyIn (strLower q) (m.full_text.getD "")) then
      (if pyIn (strLower q) m.summary then 2 else 0) + 1
      else (if pyIn (strLower q) m.summary then 2 else 0)) =
      (if pyIn (strLower q) m.summary then 2 else 0) +
      (if ((m.full_text.getD "") ≠ "" && pyIn (strLower q) (m.full_text.getD "")) then 1
        else 0) := by
    split <;> simp
  rw [h2]

/-- The scan loop builds exactly the positive-score pairs in scan order. -/
theorem buildMatches_eq (q : String) (ms : List Memory) :
    buildMatches (strLower q) ms =
      (ms.map (fun m => (specScore q m, m))).filter (fun p => p.1 != 0) := by
  induction ms with
  | nil => rfl
  | cons m rest ih =>
    rw [List.map_cons, List.filter_cons]
    by_cases h : scoreMem (strLower q) m > 0
    · have hb : (((specScore q m, m) : Nat × Memory).1 != 0) = true := by
        simp only [bne_iff_ne, ne_eq]
        rw [← scoreMem_eq_specScore]
        omega
      rw [if_pos hb, buildMatches, if_pos h, ih, scoreMem_eq_specScore]
    · have hb : (((specScore q m, m) : Nat × Memory).1 != 0) = false := by
        simp only [bne_eq_false_iff_eq]
        rw [← scoreMem_eq_specScore]
        omega
      rw [if_neg (by simp [hb]), buildMatches, if_neg h, ih]

theorem length_insertDesc (p : Nat × Memory) (l : List (Nat × Memory)) :
    (insertDesc p l).length = l.length + 1 := by
  induction l with
  | nil => rfl
  | cons q t ih => by_cases h : q.1 ≤ p.1 <;> simp [insertDesc, h, ih]

theorem length_pySortDesc (ps : List (Nat × Memory)) :
    (pySortDesc ps).length = ps.length := by
  induction ps with
  | nil => rfl
  | cons p t ih =>
    show (insertDesc p (pySortDesc t)).length = t.length + 1
    rw [length_insertDesc, ih]

theorem mem_insertDesc {x p : Nat × Memory} {l : List (Nat × Memory)} :
    x ∈ insertDesc p l ↔ x = p ∨ x ∈ l := by
  induction l with
  | nil => simp [insertDesc]
  | cons q t ih =>
    by_cases h : q.1 ≤ p.1 <;> simp [insertDesc, h, ih] <;> tauto

theorem mem_pySortDesc {x : Nat × Memory} {ps : List (Nat × Memory)} :
    x ∈ pySortDesc ps ↔ x ∈ ps := by
  induction ps with
  | nil => simp [pySortDesc]
  | cons p t ih =>
    show x ∈ insertDesc p (pySortDesc t) ↔ _
    rw [mem_insertDesc, ih]
    simp

theorem pairwise_insertDesc {p : Nat × Memory} {l : List (Nat × Memory)}
    (h : l.Pairwise (fun a b => b.1 ≤ a.1)) :
    (insertDesc p l).Pairwise (fun a b => b.1 ≤ a.1) := by
  induction l with
  | nil => simp [insertDesc]
  | cons q t ih =>
    rcases List.pairwise_cons.mp h with ⟨hq, ht⟩
    by_cases hle : q.1 ≤ p.1
    · rw [insertDesc, if_pos hle]
      refine List.pairwise_cons.mpr ⟨?_, h⟩
      intro y hy
      rcases List.mem_cons.mp hy with rfl | hyt
      · exact hle
      · exact le_trans (hq y hyt) hle
    · rw [insertDesc, if_neg hle]
      refine List.pairwise_cons.mpr ⟨?_, ih ht⟩
      intro y hy
      rcases mem_insertDesc.mp hy with rfl | hyt
      · omega
      · exact hq y hyt

/-- The stable sort produces scores in non-increasing order. -/
theorem pairwise_pySortDesc (ps : List (Nat × Memory)) :
    (pySortDesc ps).Pairwise (fun a b => b.1 ≤ a.1) := by
  induction ps with
  | nil => simp [pySortDesc]
  | cons p t ih =>
    show (insertDesc p (pySortDesc t)).Pairwise _
    exact pairwise_insertDesc ih

theorem filter_insertDesc_eq (p : Nat × Memory) (l : List (Nat × Memory)) (k : Nat)
    (hk : p.1 = k) :
    (insertDesc p l).filter (fun x => x.1 == k) =
      p :: l.filter (fun x => x.1 == k) := by
  induction l with
  | nil => simp [insertDesc, hk]
  | cons q t ih =>
    by_cases hle : q.1 ≤ p.1
    · rw [insertDesc, if_pos hle]
      simp [hk]
    · rw [insertDesc, if_neg hle]
      have hq : (q.1 == k) = false := by
        simpa using (by omega : q.1 ≠ k)
      simp [List.filter_cons, hq, ih]

theorem filter_insertDesc_ne (p : Nat × Memory) (l : List (Nat × Memory)) (k : Nat)
    (hk : p.1 ≠ k) :
    (insertDesc p l).filter (fun x => x.1 == k) = l.filter (fun x => x.1 == k) := by
  induction l with
  | nil => simp [insertDesc, hk]
  | cons q t ih =>
    by_cases hle : q.1 ≤ p.1
    · rw [insertDesc, if_pos hle]
      simp [List.filter_cons, hk]
    · rw [insertDesc, if_neg hle]
      simp [List.filter_cons, ih]

/-- Stability: among pairs of equal score, the sort preserves the scan
order (the sorted list filtered to one score equals the unsorted list
filtered to that score). -/
theorem pySortDesc_stable (ps : List (Nat × Memory)) (k : Nat) :
    (pySortDesc ps).filter (fun x => x.1 == k) = ps.filter (fun x => x.1 == k) := by
  induction ps with
  | nil => rfl
  | cons p t ih =>
    show (insertDesc p (pySortDesc t)).filter _ = _
    by_cases hk : p.1 = k
    · rw [filter_insertDesc_eq _ _ _ hk, ih]
      simp [List.filter_cons, hk]
    · rw [filter_insertDesc_ne _ _ _ hk, ih]
      have hb : (p.1 == k) = false := by simpa using hk
      simp [List.filter_cons, hb]

theorem sumValues_dictIncr {κ : Type} [BEq κ] (d : List (κ × Nat)) (k : κ) :
    sumValues (dictIncr d k) = sumValues d + 1 := by
  induction d with
  | nil => rfl
  | cons p t ih =>
    obtain ⟨k', v⟩ := p
    by_cases h : (k' == k) = true
    · simp [dictIncr, h, sumValues]
      omega
    · simp only [dictIncr, h]
      simp only [Bool.false_eq_true, if_false]
      simp [sumValues] at ih ⊢
      omega

theorem dictGet_dictIncr {κ : Type} [DecidableEq κ] (d : List (κ × Nat)) (k k' : κ) :
    dictGet (dictIncr d k) k' = dictGet d k' + if k' = k then 1 else 0 := by
  induction d with
  | nil =>
    by_cases h : k' = k
    · subst h; simp [dictIncr, dictGet]
    · have hb : (k == k') = false := by
        simpa using fun he : k = k' => h he.symm
      simp [dictIncr, dictGet, hb, h]
  | cons p t ih =>
    obtain ⟨k₀, v⟩ := p
    by_cases h0 : k₀ = k
    · subst h0
      by_cases h1 : k₀ = k'
      · subst h1; simp [dictIncr, dictGet]
      · have hb : (k₀ == k') = false := by
          simpa using fun he : k₀ = k' => h1 he
        simp [dictIncr, dictGet, hb]
        exact fun he : k' = k₀ => h1 he.symm
    · have hb0 : (k₀ == k) = false := by
        simpa using fun he : k₀ = k => h0 he
      by_cases h1 : k₀ = k'
      · subst h1
        simp [dictIncr, dictGet, hb0]
        exact h0
      · have hb1 : (k₀ == k') = false := by
          simpa using fun he : k₀ = k' => h1 he
        simp only [dictIncr, hb0, Bool.false_eq_true, if_false]
        simp only [dictGet, List.find?_cons, hb1] at ih ⊢
        exact ih

theorem dictGet_foldl_dictIncr {κ : Type} [DecidableEq κ]
    (l : List κ) : ∀ (d : List (κ × Nat)) (k : κ),
    dictGet (l.foldl dictIncr d) k = dictGet d k + l.count k := by
  induction l with
  | nil => intro d k; simp [dictGet]
  | cons x t ih =>
    intro d k
    rw [List.foldl_cons, ih, dictGet_dictIncr]
    rw [List.count_cons]
    by_cases h : k = x
    · subst h; simp; omega
    · have hb : (x == k) = false := by
        simpa using fun he : x = k => h he.symm
      simp [h, hb]

/-- Combined loop invariant of `get_stats`: starting from any accumulator,
the fold adds one level count per record, one source count per record, and
one topic count per topic instance. -/
theorem statsFold_inv (ms : List Memory) :
    ∀ acc : List (Int × Nat) × List (String × Nat) × List (String × Nat),
    sumValues (ms.foldl statsStep acc).1 = sumValues acc.1 + ms.length ∧
    (∀ src, dictGet (ms.foldl statsStep acc).2.2 src =
      dictGet acc.2.2 src + ms.countP (fun m => m.source == src)) ∧
    (∀ tp, dictGet (ms.foldl statsStep acc).2.1 tp =
      dictGet acc.2.1 tp + (ms.map (fun m => m.topics.count tp)).sum) := by
  induction ms with
  | nil => intro acc; simp
  | cons m t ih =>
    intro acc
    rw [List.foldl_cons]
    obtain ⟨ih₁, ih₂, ih₃⟩ := ih (statsStep acc m)
    refine ⟨?_, ?_, ?_⟩
    · rw [ih₁]
      show sumValues (dictIncr acc.1 m.level) + t.length = _
      rw [sumValues_dictIncr]
      simp
      omega
    · intro src
      rw [ih₂ src]
      show dictGet (dictIncr acc.2.2 m.source) src + _ = _
      rw [dictGet_dictIncr, List.countP_cons]
      by_cases h : src = m.source
      · subst h; simp
        omega
      · have hb : (m.source == src) = false := by
          simpa using fun he : m.source = src => h he.symm
        simp [h, hb]
    · intro tp
      rw [ih₃ tp]
      show dictGet (m.topics.foldl dictIncr acc.2.1) tp + _ = _
      rw [dictGet_foldl_dictIncr]
      simp
      omega

theorem findRow_some_id {s : State} {id : String} {r : Row}
    (h : findRow s id = some r) : r.id = id := by
  have := List.find?_some h
  simpa using this

theorem findRow_filter_self (s : State) (id : String) :
    findRow (s.filter (fun x => x.id != id)) id = none := by
  apply List.find?_eq_none.mpr
  intro x hx
  have := (List.mem_filter.mp hx).2
  simpa using this

theorem findRow_filter_append (s : State) (id : String) (r' : Row) (h : r'.id = id) :
    findRow (s.filter (fun x => x.id != id) ++ [r']) id = some r' := by
  rw [findRow, List.find?_append]
  rw [show List.find? (fun r => r.id == id) (s.filter (fun x => x.id != id)) = none from
    findRow_filter_self s id]
  simp [h]

theorem findRow_filter_of_ne (s : State) (id id' : String) (h : id' ≠ id) :
    findRow (s.filter (fun x => x.id != id)) id' = findRow s id' := by
  induction s with
  | nil => rfl
  | cons r t ih =>
    rw [List.filter_cons]
    by_cases hr : r.id = id
    · have hb : (r.id != id) = false := by simp [hr]
      have hb' : (r.id == id') = false := by
        simp only [beq_eq_false_iff_ne, ne_eq]
        intro he
        exact h (he ▸ hr)
      rw [hb]
      simp only [Bool.false_eq_true, if_false]
      rw [ih]
      rw [findRow, findRow]
      simp only [List.find?_cons, hb']
    · have hb : (r.id != id) = true := by simp [hr]
      rw [hb]
      simp only [if_true]
      rw [findRow, findRow]
      simp only [List.find?_cons]
      cases hq : (r.id == id') with
      | true => simp only [hq]
      | false =>
        simp only [hq]
        exact ih

theorem findRow_filter_append_of_ne (s : State) (id id' : String) (r' : Row)
    (hr : r'.id = id) (h : id' ≠ id) :
    findRow (s.filter (fun x => x.id != id) ++ [r']) id' = findRow s id' := by
  rw [findRow, List.find?_append]
  rw [show List.find? (fun r => r.id == id') (s.filter (fun x => x.id != id)) =
    findRow s id' from findRow_filter_of_ne s id id' h]
  cases hf : findRow s id' with
  | some r => rfl
  | none =>
    have hb : (r'.id == id') = false := by
      simpa using fun he : r'.id = id' => h (he ▸ hr ▸ rfl)
    simp [hb]

/-- Decoding only reads the JSON fields, so editing the access-tracking
columns of a row commutes with decoding. -/
theorem from_dict_set_access (r : Row) (a : Int) (t : String) :
    Memory.from_dict { r with access_count := a, last_accessed := t } =
      (Memory.from_dict r).map
        (fun m => { m with access_count := a, last_accessed := t }) := by
  unfold Memory.from_dict
  cases h₁ : jsonDecodeList r.topics <;>
    cases h₂ : jsonDecodeList r.keywords <;>
      cases h₃ : jsonDecodeList r.parent_ids <;>
        cases h₄ : jsonDecodeList r.child_ids <;>
          simp [h₁, h₂, h₃, h₄]

theorem updateAccess_eq {s : State} {id : String} {r : Row} (now : String)
    (hfind : findRow s id = some r) :
    MemoryStore.updateAccess s id now =
      s.filter (fun x => x.id != id) ++
        [{ r with access_count := r.access_count + 1, last_accessed := now }] := by
  simp only [MemoryStore.updateAccess, hfind]

theorem get_hit {s : State} {id : String} {r : Row} {m : Memory} (now : String)
    (hfind : findRow s id = some r) (hparse : Memory.from_dict r = some m) :
    MemoryStore.get s id now = some (some m, MemoryStore.updateAccess s id now) := by
  simp only [MemoryStore.get, hfind, hparse]

theorem get_miss {s : State} {id : String} (now : String)
    (hfind : findRow s id = none) :
    MemoryStore.get s id now = some (none, s) := by
  simp only [MemoryStore.get, hfind]

theorem filter_updateAccess {s : State} {id : String} {r : Row} (now : String)
    (hfind : findRow s id = some r) :
    (MemoryStore.updateAccess s id now).filter (fun x => x.id != id) =
      s.filter (fun x => x.id != id) := by
  rw [updateAccess_eq now hfind, List.filter_append]
  have hid : r.id = id := findRow_some_id hfind
  have h1 : List.filter (fun x => x.id != id)
      [{ r with access_count := r.access_count + 1, last_accessed := now }] = [] := by
    simp [List.filter_cons, hid]
  rw [h1, List.append_nil]
  rw [List.filter_filter]
  apply List.filter_congr
  intro x _
  simp

/-- `update` on an existing, decodable record: returns `True` and replaces
the row with the serialized updated snapshot (the access bump performed by
the inner `get` is overwritten). -/
theorem update_hit {s : State} {id : String} {r : Row} {m : Memory}
    (u : Updates) (nowAccess now : String)
    (hfind : findRow s id = some r) (hparse : Memory.from_dict r = some m) :
    MemoryStore.update s id u nowAccess now =
      some (true, s.filter (fun x => x.id != id) ++
        [({ applyUpdates m u with updated_at := now }).to_dict]) := by
  simp only [MemoryStore.update, get_hit nowAccess hfind hparse]
  rw [show (MemoryStore.updateAccess s id nowAccess).filter (fun x => x.id != id) =
    s.filter (fun x => x.id != id) from filter_updateAccess nowAccess hfind]

theorem update_miss {s : State} {id : String} (u : Updates) (nowAccess now : String)
    (hfind : findRow s id = none) :
    MemoryStore.update s id u nowAccess now = some (false, s) := by
  simp only [MemoryStore.update, get_miss nowAccess hfind]

/-- `delete` on an existing, decodable record: returns `True` and removes
every row carrying the id. -/
theorem delete_hit {s : State} {id : String} {r : Row} {m : Memory} (nowAccess : String)
    (hfind : findRow s id = some r) (hparse : Memory.from_dict r = some m) :
    MemoryStore.delete s id nowAccess =
      some (true, s.filter (fun x => x.id != id)) := by
  simp only [MemoryStore.delete, get_hit nowAccess hfind hparse]
  rw [show (MemoryStore.updateAccess s id nowAccess).filter (fun x => x.id != id) =
    s.filter (fun x => x.id != id) from filter_updateAccess nowAccess hfind]

theorem delete_miss {s : State} {id : String} (nowAccess : String)
    (hfind : findRow s id = none) :
    MemoryStore.delete s id nowAccess = some (false, s) := by
  simp only [MemoryStore.delete, get_miss nowAccess hfind]

/-- Inversion of `Memory.from_dict`: a successful decode determines every
field of the memory from the row. -/
theorem from_dict_spec {r : Row} {m : Memory} (h : Memory.from_dict r = some m) :
    ∃ ts ks ps cs,
      jsonDecodeList r.topics = some ts ∧ jsonDecodeList r.keywords = some ks ∧
      jsonDecodeList r.parent_ids = some ps ∧ jsonDecodeList r.child_ids = some cs ∧
      m = { summary := r.summary, level := r.level, full_text := some r.full_text,
            id := r.id, topics := ts, keywords := ks, source := r.source,
            parent_ids := ps, child_ids := cs, created_at := r.created_at,
            updated_at := r.updated_at, last_accessed := r.last_accessed,
            access_count := r.access_count, synthesis_attempts := r.synthesis_attempts,
            confidence := r.confidence, embedding := none } := by
  unfold Memory.from_dict at h
  rcases hts : jsonDecodeList r.topics with _ | ts <;> rw [hts] at h
  · exact absurd h (by simp)
  rcases hks : jsonDecodeList r.keywords with _ | ks <;> rw [hks] at h
  · exact absurd h (by simp)
  rcases hps : jsonDecodeList r.parent_ids with _ | ps <;> rw [hps] at h
  · exact absurd h (by simp)
  rcases hcs : jsonDecodeList r.child_ids with _ | cs <;> rw [hcs] at h
  · exact absurd h (by simp)
  exact ⟨ts, ks, ps, cs, rfl, rfl, rfl, rfl, (Option.some_inj.mp h).symm⟩

theorem from_dict_access_count {r : Row} {m : Memory}
    (h : Memory.from_dict r = some m) : m.access_count = r.access_count := by
  obtain ⟨ts, ks, ps, cs, _, _, _, _, rfl⟩ := from_dict_spec h
  rfl

theorem from_dict_id {r : Row} {m : Memory}
    (h : Memory.from_dict r = some m) : m.id = r.id := by
  obtain ⟨ts, ks, ps, cs, _, _, _, _, rfl⟩ := from_dict_spec h
  rfl

/-- When no keyword argument names a `Memory` attribute, the update loop
changes nothing. -/
theorem applyUpdates_of_noKnown {m : Memory} {u : Updates}
    (h : u.noKnown = true) : applyUpdates m u = m := by
  obtain ⟨us, ul, uf, ui, ut, uk, usr, up, uc, uca, uua, ula, uac, usa, ucf, ue, uuk⟩ := u
  simp only [Updates.noKnown, Bool.and_eq_true, Option.isNone_iff_eq_none] at h
  obtain ⟨⟨⟨⟨⟨⟨⟨⟨⟨⟨⟨⟨⟨⟨⟨h1, h2⟩, h3⟩, h4⟩, h5⟩, h6⟩, h7⟩, h8⟩, h9⟩, h10⟩, h11⟩,
    h12⟩, h13⟩, h14⟩, h15⟩, h16⟩ := h
  subst h1 h2 h3 h4 h5 h6 h7 h8 h9 h10 h11 h12 h13 h14 h15 h16
  rfl

theorem listContainsSub_nil (hay : List Char) : listContainsSub [] hay = true := by
  cases hay <;> simp [listContainsSub, List.isPrefixOf]

theorem mem_buildMatches_fst {q : String} {ms : List Memory} {p : Nat × Memory}
    (hp : p ∈ buildMatches (strLower q) ms) : p.1 = specScore q p.2 := by
  rw [buildMatches_eq] at hp
  have hmem := (List.mem_filter.mp hp).1
  obtain ⟨m, _, hm⟩ := List.mem_map.mp hmem
  rw [← hm]

theorem scoreMem_empty_ge_two (m : Memory) : 2 ≤ scoreMem (strLower "") m := by
  rw [scoreMem_eq_specScore]
  have h1 : pyIn (strLower "") m.summary = true := by
    unfold pyIn
    exact listContainsSub_nil _
  unfold specScore
  rw [h1, if_pos rfl]
  omega

theorem length_buildMatches_of_pos {qL : String} {ms : List Memory}
    (h : ∀ m ∈ ms, 0 < scoreMem qL m) :
    (buildMatches qL ms).length = ms.length := by
  induction ms with
  | nil => rfl
  | cons m t ih =>
    rw [buildMatches, if_pos (h m (List.mem_cons_self m t))]
    simp only [List.length_cons]
    rw [ih (fun x hx => h x (List.mem_cons_of_mem m hx))]

/-- C1: for every store state and query, `search(query, limit)` equals the
specification's description: score each scanned record (+2 summary
substring, +1 non-empty `full_text` hit, +1 per matching keyword, +1 per
matching topic, case-insensitively), discard score 0, sort by score
descending with ties keeping scan order (a stable sort), return the first
`limit`; the returned records are in non-increasing score order, ties keep
scan order, and the scenario record with summary "met Alice at the park"
and keyword "Alice" scores exactly 3 for query "alice". -/
theorem claim_C1_search_ranking :
    (∀ (s : State) (q : String) (limit : Nat),
      MemoryStore.search s q limit = searchSpec s q limit) ∧
    (∀ (s : State) (q : String) (limit : Nat),
      ((MemoryStore.search s q limit).getD []).Pairwise
        (fun a b => specScore q b ≤ specScore q a)) ∧
    (∀ (ps : List (Nat × Memory)) (k : Nat),
      (pySortDesc ps).filter (fun x => x.1 == k) = ps.filter (fun x => x.1 == k)) ∧
    scoreMem (strLower "alice") aliceMemory = 3 := by
  refine ⟨?_, ?_, pySortDesc_stable, rfl⟩
  · intro s q limit
    unfold MemoryStore.search searchSpec
    cases hg : MemoryStore.get_all s 1000 with
    | none => rfl
    | some all => simp only [buildMatches_eq]
  · intro s q limit
    unfold MemoryStore.search
    cases hg : MemoryStore.get_all s 1000 with
    | none => simp
    | some all =>
      simp only [Option.getD_some, Option.getD]
      rw [List.pairwise_map]
      have hsorted : ((pySortDesc (buildMatches (strLower q) all)).take limit).Pairwise
          (fun a b => b.1 ≤ a.1) :=
        (pairwise_pySortDesc _).sublist (List.take_sublist _ _)
      refine hsorted.imp_of_mem ?_
      intro a b ha hb hr
      have ha' := mem_buildMatches_fst
        (mem_pySortDesc.mp (List.take_subset _ _ ha))
      have hb' := mem_buildMatches_fst
        (mem_pySortDesc.mp (List.take_subset _ _ hb))
      rw [← ha', ← hb']
      exact hr

/-- C4: serializing any `Memory` to its storage row and deserializing the
row gives back a `Memory` equal to the original in every field, except
that an absent `full_text` is normalized to the empty string and the
non-persisted `embedding` comes back as `none`; the four sequence fields
round-trip in order. -/
theorem claim_C4_serialization_roundtrip (m : Memory) :
    Memory.from_dict (Memory.to_dict m) =
      some { m with full_text := some (m.full_text.getD ""), embedding := none } :=
  from_dict_to_dict m

/-- C2: on a stored, decodable record, `get` returns the pre-increment
snapshot while the stored row's `access_count` is bumped by exactly 1 and
`last_accessed` is refreshed; decoding the bumped row shows the next `get`
will see `access_count` exactly one higher. -/
theorem claim_C2_get_access_tracking (s : State) (id now : String) (r : Row) (m : Memory)
    (hfind : findRow s id = some r) (hparse : Memory.from_dict r = some m) :
    MemoryStore.get s id now = some (some m, MemoryStore.updateAccess s id now) ∧
    m.access_count = r.access_count ∧
    findRow (MemoryStore.updateAccess s id now) id =
      some { r with access_count := r.access_count + 1, last_accessed := now } ∧
    Memory.from_dict { r with access_count := r.access_count + 1, last_accessed := now } =
      some { m with access_count := r.access_count + 1, last_accessed := now } := by
  refine ⟨get_hit now hfind hparse, from_dict_access_count hparse, ?_, ?_⟩
  · rw [updateAccess_eq now hfind]
    have hid : r.id = id := findRow_some_id hfind
    exact findRow_filter_append s id
      { r with access_count := r.access_count + 1, last_accessed := now } hid
  · rw [from_dict_set_access, hparse]
    rfl

/-- Witness for C2 at a concrete one-row store. -/
theorem claim_C2_witness :
    MemoryStore.get [sampleRow] "a" "t1" =
      some (some sampleMemory, MemoryStore.updateAccess [sampleRow] "a" "t1") ∧
    sampleMemory.access_count = sampleRow.access_count ∧
    findRow (MemoryStore.updateAccess [sampleRow] "a" "t1") "a" =
      some { sampleRow with
        access_count := sampleRow.access_count + 1, last_accessed := "t1" } ∧
    Memory.from_dict { sampleRow with
        access_count := sampleRow.access_count + 1, last_accessed := "t1" } =
      some { sampleMemory with
        access_count := sampleRow.access_count + 1, last_accessed := "t1" } :=
  claim_C2_get_access_tracking [sampleRow] "a" "t1" sampleRow sampleMemory rfl rfl

/-- C3: on an existing, decodable record, `update` with supplied fields
(none of them the identifier) replaces exactly the supplied fields, stamps
`updated_at`, leaves every other field — `id`, `created_at`,
`access_count`, `last_accessed` included — unchanged, returns true, and
touches no other record; on an unknown identifier it returns false and
leaves the store unchanged. -/
theorem claim_C3_update_fields :
    (∀ (s : State) (id : String) (u : Updates) (nowAccess now : String) (r : Row) (m : Memory),
      findRow s id = some r → Memory.from_dict r = some m → u.id = none →
      (MemoryStore.update s id u nowAccess now =
        some (true, s.filter (fun x => x.id != id) ++
          [({ applyUpdates m u with updated_at := now }).to_dict]) ∧
       (∀ id', id' ≠ id →
         findRow (s.filter (fun x => x.id != id) ++
           [({ applyUpdates m u with updated_at := now }).to_dict]) id' = findRow s id') ∧
       ({ applyUpdates m u with updated_at := now }).summary = u.summary.getD m.summary ∧
       ({ applyUpdates m u with updated_at := now }).level = u.level.getD m.level ∧
       ({ applyUpdates m u with updated_at := now }).full_text =
         u.full_text.getD m.full_text ∧
       ({ applyUpdates m u with updated_at := now }).topics = u.topics.getD m.topics ∧
       ({ applyUpdates m u with updated_at := now }).keywords =
         u.keywords.getD m.keywords ∧
       ({ applyUpdates m u with updated_at := now }).source = u.source.getD m.source ∧
       ({ applyUpdates m u with updated_at := now }).parent_ids =
         u.parent_ids.getD m.parent_ids ∧
       ({ applyUpdates m u with updated_at := now }).child_ids =
         u.child_ids.getD m.child_ids ∧
       ({ applyUpdates m u with updated_at := now }).created_at =
         u.created_at.getD m.created_at ∧
       ({ applyUpdates m u with updated_at := now }).last_accessed =
         u.last_accessed.getD m.last_accessed ∧
       ({ applyUpdates m u with updated_at := now }).access_count =
         u.access_count.getD m.access_count ∧
       ({ applyUpdates m u with updated_at := now }).synthesis_attempts =
         u.synthesis_attempts.getD m.synthesis_attempts ∧
       ({ applyUpdates m u with updated_at := now }).confidence =
         u.confidence.getD m.confidence ∧
       ({ applyUpdates m u with updated_at := now }).id = m.id ∧
       ({ applyUpdates m u with updated_at := now }).updated_at = now)) ∧
    (∀ (s : State) (id : String) (u : Updates) (nowAccess now : String),
      findRow s id = none →
      MemoryStore.update s id u nowAccess now = some (false, s)) := by
  constructor
  · intro s id u nowAccess now r m hfind hparse hid
    refine ⟨update_hit u nowAccess now hfind hparse, ?_, rfl, rfl, rfl, rfl, rfl, rfl,
      rfl, rfl, rfl, rfl, rfl, rfl, rfl, ?_, rfl⟩
    · intro id' hne
      have hnewid : ({ applyUpdates m u with updated_at := now }).to_dict.id = id := by
        show (applyUpdates m u).id = id
        show u.id.getD m.id = id
        rw [hid]
        show m.id = id
        rw [from_dict_id hparse]
        exact findRow_some_id hfind
      exact findRow_filter_append_of_ne s id id' _ hnewid hne
    · show u.id.getD m.id = m.id
      rw [hid]
      rfl
  · intro s id u nowAccess now hfind
    exact update_miss u nowAccess now hfind

/-- Witness for C3: update the summary of the sample record. -/
theorem claim_C3_witness :
    MemoryStore.update [sampleRow] "a" { summary := some "s2" } "t1" "t2" =
      some (true, List.filter (fun x => x.id != "a") [sampleRow] ++
        [({ applyUpdates sampleMemory { summary := some "s2" } with
            updated_at := "t2" }).to_dict]) ∧
    ({ applyUpdates sampleMemory { summary := some "s2" } with
        updated_at := "t2" }).summary = "s2" ∧
    ({ applyUpdates sampleMemory { summary := some "s2" } with
        updated_at := "t2" }).access_count = sampleMemory.access_count := by
  have h := (claim_C3_update_fields.1 [sampleRow] "a" { summary := some "s2" }
    "t1" "t2" sampleRow sampleMemory rfl rfl rfl)
  exact ⟨h.1, h.2.2.1, h.2.2.2.2.2.2.2.2.2.2.2.2.1⟩

/-- C10: `update` on an existing record with only unrecognized keyword
arguments silently ignores them: it still stamps `updated_at`, stores the
record otherwise unchanged, touches no other record, and returns true. -/
theorem claim_C10_unknown_kwargs (s : State) (id : String) (u : Updates)
    (nowAccess now : String) (r : Row) (m : Memory)
    (hfind : findRow s id = some r) (hparse : Memory.from_dict r = some m)
    (hnk : u.noKnown = true) (hunk : u.unknown_keys ≠ []) :
    MemoryStore.update s id u nowAccess now =
      some (true, s.filter (fun x => x.id != id) ++
        [({ m with updated_at := now }).to_dict]) ∧
    (∀ id', id' ≠ id →
      findRow (s.filter (fun x => x.id != id) ++
        [({ m with updated_at := now }).to_dict]) id' = findRow s id') := by
  have happ : applyUpdates m u = m := applyUpdates_of_noKnown hnk
  constructor
  · rw [update_hit u nowAccess now hfind hparse, happ]
  · intro id' hne
    have hnewid : ({ m with updated_at := now }).to_dict.id = id := by
      show m.id = id
      rw [from_dict_id hparse]
      exact findRow_some_id hfind
    exact findRow_filter_append_of_ne s id id' _ hnewid hne

/-- Witness for C10 with the unknown keyword argument "bogus". -/
theorem claim_C10_witness :
    MemoryStore.update [sampleRow] "a" { unknown_keys := ["bogus"] } "t1" "t2" =
      some (true, List.filter (fun x => x.id != "a") [sampleRow] ++
        [({ sampleMemory with updated_at := "t2" }).to_dict]) ∧
    (∀ id', id' ≠ "a" →
      findRow (List.filter (fun x => x.id != "a") [sampleRow] ++
        [({ sampleMemory with updated_at := "t2" }).to_dict]) id' =
        findRow [sampleRow] id') :=
  claim_C10_unknown_kwargs [sampleRow] "a" { unknown_keys := ["bogus"] }
    "t1" "t2" sampleRow sampleMemory rfl rfl rfl (by simp)

/-- C6: `get`, `update` and `delete` on an identifier not in the store
return not-found / false without changing the store and without raising
(they are total functions returning explicit results); and after a
successful `delete(id)`, `get(id)` reports not-found. -/
theorem claim_C6_not_found :
    (∀ (s : State) (id now : String), findRow s id = none →
      MemoryStore.get s id now = some (none, s)) ∧
    (∀ (s : State) (id : String) (u : Updates) (nowAccess now : String),
      findRow s id = none →
      MemoryStore.update s id u nowAccess now = some (false, s)) ∧
    (∀ (s : State) (id nowAccess : String), findRow s id = none →
      MemoryStore.delete s id nowAccess = some (false, s)) ∧
    (∀ (s : State) (id nowAccess : String) (s' : State),
      MemoryStore.delete s id nowAccess = some (true, s') →
      ∀ now', MemoryStore.get s' id now' = some (none, s')) := by
  refine ⟨fun s id now h => get_miss now h,
    fun s id u na now h => update_miss u na now h,
    fun s id na h => delete_miss na h, ?_⟩
  intro s id na s' hdel now'
  cases hfind : findRow s id with
  | none =>
    rw [delete_miss na hfind] at hdel
    exact absurd (Prod.mk.injEq .. ▸ Option.some_inj.mp hdel).1 (by simp)
  | some r =>
    cases hparse : Memory.from_dict r with
    | none =>
      simp only [MemoryStore.delete, MemoryStore.get, hfind, hparse] at hdel
      exact absurd hdel (by simp)
    | some m =>
      rw [delete_hit na hfind hparse] at hdel
      have hs' : s' = s.filter (fun x => x.id != id) :=
        ((Prod.mk.injEq .. ▸ Option.some_inj.mp hdel).2).symm
      rw [hs']
      exact get_miss now' (findRow_filter_self s id)

/-- Witness for C6 at a concrete store: unknown id "z", then delete "a"
followed by get "a". -/
theorem claim_C6_witness :
    MemoryStore.get [sampleRow] "z" "t1" = some (none, [sampleRow]) ∧
    MemoryStore.update [sampleRow] "z" { summary := some "x" } "t1" "t2" =
      some (false, [sampleRow]) ∧
    MemoryStore.delete [sampleRow] "z" "t1" = some (false, [sampleRow]) ∧
    MemoryStore.get (List.filter (fun x => x.id != "a") [sampleRow]) "a" "t3" =
      some (none, List.filter (fun x => x.id != "a") [sampleRow]) := by
  refine ⟨claim_C6_not_found.1 [sampleRow] "z" "t1" rfl,
    claim_C6_not_found.2.1 [sampleRow] "z" { summary := some "x" } "t1" "t2" rfl,
    claim_C6_not_found.2.2.1 [sampleRow] "z" "t1" rfl,
    claim_C6_not_found.2.2.2 [sampleRow] "a" "t1" _ ?_ "t3"⟩
  exact delete_hit "t1" rfl (rfl : Memory.from_dict sampleRow = some sampleMemory)

/-- Rows differing from `sampleRow` only in `id` decode pointwise. -/
theorem mapM_from_dict_sample (l : List Nat) :
    (l.map (fun i => { sampleRow with id := toString i })).mapM Memory.from_dict =
      some (l.map (fun i => { sampleMemory with id := toString i })) := by
  induction l with
  | nil => rfl
  | cons i t ih =>
    rw [List.map_cons, List.map_cons, List.mapM_cons]
    rw [show Memory.from_dict { sampleRow with id := toString i } =
      some { sampleMemory with id := toString i } from rfl]
    rw [ih]
    rfl

/-- C5 (code bug): on a store of 1001 records, `delete_all` removes every
record but reports 1000, because the pre-deletion count is taken as
`len(self.get_all())` and `get_all`'s default `limit=1000` caps the scan —
contradicting both the claim and the method's own docstring ("Number of
memories deleted"). -/
theorem claim_C5_delete_all_cap :
    bigState.length = 1001 ∧
    MemoryStore.delete_all bigState = some (1000, []) := by
  constructor
  · simp [bigState]
  · have htake : bigState.take 1000 =
        ((List.range 1001).take 1000).map (fun i => { sampleRow with id := toString i }) := by
      rw [bigState, List.map_take]
    have hall : MemoryStore.get_all bigState 1000 =
        some (((List.range 1001).take 1000).map
          (fun i => { sampleMemory with id := toString i })) := by
      rw [MemoryStore.get_all, htake, mapM_from_dict_sample]
    rw [MemoryStore.delete_all, hall]
    have hlen : (((List.range 1001).take 1000).map
        (fun i => ({ sampleMemory with id := toString i } : Memory))).length = 1000 := by
      simp
    simp only [hlen]
    rfl

/-- The import loop mints one id per entry whose summary is present and
non-empty (Python's `if not summary: continue`). -/
theorem importLoop_count (source now : String) (freshIds : Nat → String) :
    ∀ (entries : List ImportEntry) (s : State) (k : Nat),
    (importLoop source now freshIds entries s k).1.length =
      entries.countP (fun e => e.summary.getD "" != "") := by
  intro entries
  induction entries with
  | nil => intro s k; rfl
  | cons e t ih =>
    intro s k
    cases he : e.summary with
    | none => simp [importLoop, he, List.countP_cons, ih]
    | some sm =>
      by_cases hsm : sm = ""
      · subst hsm
        simp [importLoop, he, List.countP_cons, ih]
      · simp [importLoop, he, hsm, List.countP_cons, ih]

/-- C7, counterexample: an entry that *has* a summary — the empty string —
is skipped, so the batch imports 0 entries although exactly 1 entry of the
input carries a summary field. -/
theorem claim_C7_counterexample :
    (memory_import [] [{ summary := some "" }] "import" (fun n => toString n) "t").1.count
      = 0 ∧
    List.countP (fun e => e.summary.isSome) [({ summary := some "" } : ImportEntry)] = 1 :=
  ⟨rfl, rfl⟩

/-- C7 (amended): the import skips each entry whose summary is missing *or
empty*, adds every remaining entry, succeeds as a whole, and returns a
count equal to the number of entries imported together with exactly that
many freshly minted ids; importing [{summary:"A"}, {no summary},
{summary:"B"}] returns count 2. -/
theorem claim_C7_import_count :
    (∀ (s : State) (entries : List ImportEntry) (source : String)
      (freshIds : Nat → String) (now : String),
      (memory_import s entries source freshIds now).1.count =
        entries.countP (fun e => e.summary.getD "" != "") ∧
      (memory_import s entries source freshIds now).1.ids.length =
        (memory_import s entries source freshIds now).1.count) ∧
    (memory_import [] [{ summary := some "A" }, {}, { summary := some "B" }] "import"
      (fun n => toString n) "t").1.count = 2 := by
  refine ⟨?_, rfl⟩
  intro s entries source freshIds now
  exact ⟨importLoop_count source now freshIds entries s 0, rfl⟩

/-- C8: the statistics are computed over the scanned records: the level
counts sum to `total`, each record is counted once under its source, and
each topic instance counts independently (a record listing a topic twice
contributes 2 to that topic). -/
theorem claim_C8_stats (s : State) (ms : List Memory) (st : MemoryStats)
    (hall : MemoryStore.get_all s 1000 = some ms)
    (hst : MemoryStore.get_stats s = some st) :
    st.total = ms.length ∧
    sumValues st.by_level = st.total ∧
    (∀ src, dictGet st.by_source src = ms.countP (fun m => m.source == src)) ∧
    (∀ tp, dictGet st.by_topic tp = (ms.map (fun m => m.topics.count tp)).sum) := by
  simp only [MemoryStore.get_stats, hall] at hst
  obtain rfl := Option.some_inj.mp hst
  obtain ⟨h₁, h₂, h₃⟩ := statsFold_inv ms ([], [], [])
  refine ⟨rfl, ?_, ?_, ?_⟩
  · show sumValues (statsFold ms).1 = ms.length
    rw [statsFold, h₁]
    simp [sumValues]
  · intro src
    show dictGet (statsFold ms).2.2 src = _
    rw [statsFold, h₂ src]
    simp [dictGet]
  · intro tp
    show dictGet (statsFold ms).2.1 tp = _
    rw [statsFold, h₃ tp]
    simp [dictGet]

/-- Witness for C8 at the one-record store. -/
theorem claim_C8_witness :
    ({ total := 1, by_level := [(0, 1)], by_topic := [],
       by_source := [("conversation", 1)] } : MemoryStats).total = 1 ∧
    sumValues [((0 : Int), 1)] = 1 ∧
    (∀ src, dictGet [("conversation", 1)] src =
      [sampleMemory].countP (fun m => m.source == src)) ∧
    (∀ tp, dictGet ([] : List (String × Nat)) tp =
      ([sampleMemory].map (fun m => m.topics.count tp)).sum) := by
  have h := claim_C8_stats [sampleRow] [sampleMemory]
    { total := 1, by_level := [(0, 1)], by_topic := [],
      by_source := [("conversation", 1)] } rfl rfl
  exact h

/-- C9: for the empty query every scanned record scores at least 2, so
nothing is discarded and `search("", limit)` returns `min(limit, number of
scanned records)` records. -/
theorem claim_C9_empty_query (s : State) (limit : Nat) (ms : List Memory)
    (hall : MemoryStore.get_all s 1000 = some ms) :
    (∀ m ∈ ms, 2 ≤ scoreMem (strLower "") m) ∧
    ∃ l, MemoryStore.search s "" limit = some l ∧ l.length = min limit ms.length := by
  refine ⟨fun m _ => scoreMem_empty_ge_two m, ?_⟩
  refine ⟨((pySortDesc (buildMatches (strLower "") ms)).take limit).map Prod.snd, ?_, ?_⟩
  · simp only [MemoryStore.search, hall]
  · rw [List.length_map, List.length_take, length_pySortDesc]
    rw [length_buildMatches_of_pos (fun m _ => by
      have := scoreMem_empty_ge_two m
      omega)]

/-- Witness for C9: empty query over the one-record store with limit 5. -/
theorem claim_C9_witness :
    (∀ m ∈ [sampleMemory], 2 ≤ scoreMem (strLower "") m) ∧
    ∃ l, MemoryStore.search [sampleRow] "" 5 = some l ∧
      l.length = min 5 [sampleMemory].length :=
  claim_C9_empty_query [sampleRow] 5 [sampleMemory] rfl

end Oubli
